import Mathlib

/-
  Verification development for the in-memory limit order book matching engine
  and its paper-trading ledger.

  Shallow embedding conventions:
  * `rust_decimal::Decimal` is modelled as `ℚ` (exact signed arithmetic; the
    matching paths use only `+`, `-`, `min` and comparisons, the ledger also
    divides, which is exact in `ℚ`).
  * The `OrderedFloat<f64>` price keys of `src/orderbook/book.rs` (produced by
    `Decimal::to_f64` and read back with `Decimal::from_f64_retain`) are
    modelled as the underlying `ℚ` price itself; the claims under study are
    about which price is used, not about float rounding.
  * `BTreeMap<Price, PriceLevel>` is modelled as an association list whose keys
    are kept in ascending order by the insertion helpers, iterated front-to-back
    (ascending) or back-to-front (descending `.rev()`).
  * `DashMap<OrderId, Order>` / `HashMap<OrderId, Order>` are modelled as
    association lists with replace-on-insert and delete-on-remove.
  * Random ids (`Uuid`), timestamps (`Utc::now`), latency measurements,
    commission and symbol/client strings are omitted from the records: no claim
    mentions them and they carry no matching-state semantics.
-/

/-- Order side, from `src/types/order.rs` (`OrderSide`). -/
inductive OrderSide where
  | buy
  | sell
deriving DecidableEq, Repr

/-- Opposite side, as computed for the taker fill in `MatchResult::new`
(`src/types/execution.rs`). -/
def OrderSide.opposite : OrderSide → OrderSide
  | .buy => .sell
  | .sell => .buy

/-- Order type, from `src/types/order.rs` (`OrderType`). -/
inductive OrderType where
  | market
  | limit
  | goodTillCancel
deriving DecidableEq, Repr

/-- Order status, from `src/types/order.rs` (`OrderStatus`). -/
inductive OrderStatus where
  | pending
  | partiallyFilled
  | filled
  | cancelled
  | rejected
deriving DecidableEq, Repr

/-- Execution type, from `src/types/execution.rs` (`ExecutionType`); only the
constructors the embedded code paths produce are kept. -/
inductive ExecutionType where
  | new
  | partialFill
  | fill
  | canceled
  | rejected
deriving DecidableEq, Repr

/-- Modelled from the spec: the `Order` record of spec §3
`{id, clientId, symbol, side, type, quantity, price, filledQuantity, status, ...}`.
The order struct consumed by `OrderBook::add_order` in `src/orderbook/book.rs`
and by `src/engine.rs` (optional decimal `price`, decimal `filled_quantity`,
methods `remaining_quantity`, `is_fully_filled`, `can_match`) is not present
under `src/` — `src/types/order.rs` holds a different, `f64`-based `Order` —
so its shape is taken from §3 and from the field accesses in those two files.
Client, symbol and timestamp fields are omitted (see header note). -/
structure Order where
  id : Nat
  side : OrderSide
  order_type : OrderType
  price : Option ℚ
  quantity : ℚ
  filled_quantity : ℚ
  status : OrderStatus
deriving DecidableEq, Repr

/-- `remaining = quantity - filled` (spec §3 / glossary "leaves quantity"). -/
def Order.remaining_quantity (o : Order) : ℚ := o.quantity - o.filled_quantity

/-- An order is fully filled when nothing remains. -/
def Order.is_fully_filled (o : Order) : Bool := o.remaining_quantity ≤ 0

/-- Mirrors `Order::can_match` of `src/types/order.rs`, lifted to the optional
decimal price of the spec §3 order (`Market` always matches; `Limit` /
`GoodTillCancel` buys need `price ≥ market_price`, sells `price ≤ market_price`). -/
def Order.can_match (o : Order) (market_price : ℚ) : Bool :=
  match o.order_type, o.side with
  | .market, _ => true
  | _, .buy =>
    match o.price with
    | some p => market_price ≤ p
    | none => false
  | _, .sell =>
    match o.price with
    | some p => p ≤ market_price
    | none => false

/-- Execution report, from `src/types/execution.rs` (`ExecutionReport`), keeping
the semantically relevant fields. -/
structure ExecutionReport where
  order_id : Nat
  side : OrderSide
  execution_type : ExecutionType
  order_status : OrderStatus
  price : Option ℚ
  quantity : ℚ
  cumulative_quantity : ℚ
  leaves_quantity : ℚ
  last_price : Option ℚ
  last_quantity : Option ℚ
deriving DecidableEq, Repr

/-- Match result, from `src/types/execution.rs` (`MatchResult`): maker and taker
ids, the trade price and quantity, and the maker's side (the taker fill's side is
its opposite, as built in `MatchResult::new`). -/
structure MatchResult where
  maker_order_id : Nat
  taker_order_id : Nat
  price : ℚ
  quantity : ℚ
  maker_side : OrderSide
deriving DecidableEq, Repr

/-- Price level, from `src/engine.rs` (`PriceLevel`): aggregate quantity, order
count and the FIFO queue (front of the list = oldest). -/
structure PriceLevel where
  price : ℚ
  quantity : ℚ
  order_count : Nat
  orders : List Order
deriving DecidableEq, Repr

/-- `PriceLevel::new`. -/
def PriceLevel.new (p : ℚ) : PriceLevel :=
  { price := p, quantity := 0, order_count := 0, orders := [] }

/-- `PriceLevel::add_order`: bump the aggregate and push onto the back of the
FIFO queue. -/
def PriceLevel.add_order (L : PriceLevel) (o : Order) : PriceLevel :=
  { L with
    quantity := L.quantity + o.remaining_quantity
    order_count := L.order_count + 1
    orders := L.orders ++ [o] }

/-- `PriceLevel::remove_order`: remove the first queued order with the given id
(if any) and decrement the aggregates.  (`order_count` is `u32` in the source;
`Nat` subtraction models the reachable, non-underflowing states.) -/
def PriceLevel.remove_order (L : PriceLevel) (oid : Nat) : PriceLevel :=
  match L.orders.find? (fun o => o.id == oid) with
  | some o =>
    { L with
      orders := L.orders.eraseP (fun x => x.id == oid)
      quantity := L.quantity - o.remaining_quantity
      order_count := L.order_count - 1 }
  | none => L

/-- `PriceLevel::is_empty`. -/
def PriceLevel.is_empty (L : PriceLevel) : Bool := L.orders.isEmpty

/-- Lookup in the id→order map (`DashMap::get`). -/
def omapLookup (m : List (Nat × Order)) (k : Nat) : Option Order :=
  (m.find? (fun e => e.1 == k)).map (fun e => e.2)

/-- Deletion from the id→order map (`DashMap::remove`). -/
def omapRemove (m : List (Nat × Order)) (k : Nat) : List (Nat × Order) :=
  m.filter (fun e => e.1 != k)

/-- Insert-or-replace in the id→order map (`DashMap::insert`). -/
def omapInsert (m : List (Nat × Order)) (k : Nat) (v : Order) : List (Nat × Order) :=
  (k, v) :: omapRemove m k

/-- `BTreeMap::get` on the price-level map. -/
def lvlsFind (ls : List (ℚ × PriceLevel)) (p : ℚ) : Option PriceLevel :=
  match ls with
  | [] => none
  | (k, L) :: rest => if k = p then some L else lvlsFind rest p

/-- `bids.entry(price).or_insert_with(PriceLevel::new).add_order(order)`:
ordered-map insertion keeping keys ascending
(`OrderBook::add_order_to_price_level`, `src/orderbook/book.rs`). -/
def lvlsAddOrder (ls : List (ℚ × PriceLevel)) (p : ℚ) (o : Order) :
    List (ℚ × PriceLevel) :=
  match ls with
  | [] => [(p, (PriceLevel.new p).add_order o)]
  | (k, L) :: rest =>
    if p < k then (p, (PriceLevel.new p).add_order o) :: (k, L) :: rest
    else if p = k then (k, L.add_order o) :: rest
    else (k, L) :: lvlsAddOrder rest p o

/-- `OrderBook::remove_order_from_price_level` body on one side: remove the
order from the level at `p` and drop the level when it empties. -/
def lvlsRemoveOrder (ls : List (ℚ × PriceLevel)) (p : ℚ) (oid : Nat) :
    List (ℚ × PriceLevel) :=
  match ls with
  | [] => []
  | (k, L) :: rest =>
    if k = p then
      let L2 := L.remove_order oid
      if L2.is_empty then rest else (k, L2) :: rest
    else (k, L) :: lvlsRemoveOrder rest p oid

/-- The per-symbol order book of `src/orderbook/book.rs` (`OrderBook`): bid and
ask level maps (keys ascending) plus the id→order lookup map. -/
structure OrderBook where
  bids : List (ℚ × PriceLevel)
  asks : List (ℚ × PriceLevel)
  orders : List (Nat × Order)
deriving DecidableEq, Repr

/-- `OrderBook::new`. -/
def OrderBook.empty : OrderBook := { bids := [], asks := [], orders := [] }

/-- `get_best_bid_price`: highest bid = last key of the ascending map. -/
def OrderBook.get_best_bid_price (b : OrderBook) : Option ℚ :=
  b.bids.getLast?.map (fun e => e.1)

/-- `get_best_ask_price`: lowest ask = first key of the ascending map. -/
def OrderBook.get_best_ask_price (b : OrderBook) : Option ℚ :=
  b.asks.head?.map (fun e => e.1)

/-- `OrderBook::get_order`. -/
def OrderBook.get_order (b : OrderBook) (oid : Nat) : Option Order :=
  omapLookup b.orders oid

/-- Inner loop of `OrderBook::find_matches` over one level's FIFO queue: while
the incoming remainder is positive, match `min(remaining, resting.remaining)`
against each queued order in arrival order, emitting a `MatchResult` at the
level price for every positive quantity.  Returns the matches and the incoming
remainder left after the level. -/
def findMatchesQueue (taker_id : Nat) (maker_side : OrderSide) (price : ℚ)
    (rem : ℚ) (resting : List Order) : List MatchResult × ℚ :=
  match resting with
  | [] => ([], rem)
  | o :: rest =>
    if rem ≤ 0 then ([], rem)
    else
      let mq := min rem o.remaining_quantity
      if 0 < mq then
        let res := findMatchesQueue taker_id maker_side price (rem - mq) rest
        ({ maker_order_id := o.id, taker_order_id := taker_id, price := price,
           quantity := mq, maker_side := maker_side } :: res.1, res.2)
      else findMatchesQueue taker_id maker_side price rem rest

/-- Outer loop of `OrderBook::find_matches` over the opposite side's levels in
best-first order: stop as soon as the remainder is exhausted or the incoming
order no longer crosses the level price. -/
def findMatchesLevels (incoming : Order) (maker_side : OrderSide)
    (ls : List (ℚ × PriceLevel)) (rem : ℚ) : List MatchResult :=
  match ls with
  | [] => []
  | (p, L) :: rest =>
    if rem ≤ 0 then []
    else if incoming.can_match p then
      let res := findMatchesQueue incoming.id maker_side p rem L.orders
      res.1 ++ findMatchesLevels incoming maker_side rest res.2
    else []

/-- `OrderBook::find_matches` (`src/orderbook/book.rs`): buys walk the asks
ascending, sells walk the bids descending (`.iter().rev()`). -/
def OrderBook.find_matches (b : OrderBook) (incoming : Order) : List MatchResult :=
  match incoming.side with
  | .buy => findMatchesLevels incoming .sell b.asks incoming.remaining_quantity
  | .sell => findMatchesLevels incoming .buy b.bids.reverse incoming.remaining_quantity

/-- `OrderBook::create_execution_report` (`src/orderbook/book.rs`): a report for
the taker, with `order_status` hard-coded to `PartiallyFilled`,
`cumulative_quantity` hard-coded to the match quantity and `leaves_quantity`
hard-coded to zero (the source comments read "This should be calculated"). -/
def create_execution_report (m : MatchResult) (exec_type : ExecutionType) :
    ExecutionReport :=
  { order_id := m.taker_order_id
    side := m.maker_side.opposite
    execution_type := exec_type
    order_status := .partiallyFilled
    price := some m.price
    quantity := m.quantity
    cumulative_quantity := m.quantity
    leaves_quantity := 0
    last_price := some m.price
    last_quantity := some m.quantity }

/-- The `ExecutionType::New` acceptance report built inline in
`OrderBook::add_order` for a remainder that is placed in the book. -/
def new_order_report (o : Order) : ExecutionReport :=
  { order_id := o.id
    side := o.side
    execution_type := .new
    order_status := .pending
    price := o.price
    quantity := o.remaining_quantity
    cumulative_quantity := o.filled_quantity
    leaves_quantity := o.remaining_quantity
    last_price := none
    last_quantity := none }

/-- `OrderBook::add_order_to_price_level`: only orders carrying a price are
placed into a level (a market order's `price` is `None`, so it is skipped). -/
def OrderBook.add_order_to_price_level (b : OrderBook) (o : Order) : OrderBook :=
  match o.price with
  | none => b
  | some p =>
    match o.side with
    | .buy => { b with bids := lvlsAddOrder b.bids p o }
    | .sell => { b with asks := lvlsAddOrder b.asks p o }

/-- `OrderBook::add_order` (`src/orderbook/book.rs`): compute the immediate
match reports, then — because the matching never mutates the incoming order's
`filled_quantity`, `is_fully_filled` is evaluated on the unchanged order — place
the order in the lookup map and price level whenever that unchanged order is not
fully filled, and append the `New` acceptance report. -/
def OrderBook.add_order (b : OrderBook) (o : Order) : OrderBook × List ExecutionReport :=
  let can_match_immediately :=
    match o.side with
    | .buy =>
      match b.get_best_ask_price with
      | some bp => o.can_match bp
      | none => false
    | .sell =>
      match b.get_best_bid_price with
      | some bp => o.can_match bp
      | none => false
  let fill_reports :=
    if can_match_immediately then
      (b.find_matches o).map (fun m => create_execution_report m .fill)
    else []
  if o.is_fully_filled then (b, fill_reports)
  else
    let b2 := { b with orders := omapInsert b.orders o.id o }
    let b3 := b2.add_order_to_price_level o
    (b3, fill_reports ++ [new_order_report o])

/-- `OrderBook::remove_order_from_price_level`. -/
def OrderBook.remove_order_from_price_level (b : OrderBook) (o : Order) : OrderBook :=
  match o.price with
  | none => b
  | some p =>
    match o.side with
    | .buy => { b with bids := lvlsRemoveOrder b.bids p o.id }
    | .sell => { b with asks := lvlsRemoveOrder b.asks p o.id }

/-- The `Cancelled` report built inline in `OrderBook::cancel_order`. -/
def cancel_report (o : Order) : ExecutionReport :=
  { order_id := o.id
    side := o.side
    execution_type := .canceled
    order_status := .cancelled
    price := o.price
    quantity := o.remaining_quantity
    cumulative_quantity := o.filled_quantity
    leaves_quantity := 0
    last_price := none
    last_quantity := none }

/-- `OrderBook::cancel_order` (`src/orderbook/book.rs`): the order is removed
from the lookup map first (`self.orders.remove`), and only then is its status
inspected; a `Pending`/`PartiallyFilled` order is also removed from its price
level and a `Cancelled` report returned, any other status yields `None` (with
the lookup-map removal already done). -/
def OrderBook.cancel_order (b : OrderBook) (oid : Nat) :
    Option ExecutionReport × OrderBook :=
  match omapLookup b.orders oid with
  | none => (none, b)
  | some o =>
    let b2 := { b with orders := omapRemove b.orders oid }
    if o.status = .pending ∨ o.status = .partiallyFilled then
      (some (cancel_report o), b2.remove_order_from_price_level o)
    else (none, b2)

/- ------------------------------------------------------------------ -/
/- Embedding of the second matching implementation, `src/engine.rs`.   -/
/- ------------------------------------------------------------------ -/

/-- Replace the level stored at key `p` (models mutation through
`BTreeMap::get_mut`). -/
def lvlsSet (ls : List (ℚ × PriceLevel)) (p : ℚ) (L2 : PriceLevel) :
    List (ℚ × PriceLevel) :=
  match ls with
  | [] => []
  | (k, L) :: rest =>
    if k = p then (k, L2) :: rest else (k, L) :: lvlsSet rest p L2

/-- Remove the level stored at key `p` (`BTreeMap::remove`). -/
def lvlsErase (ls : List (ℚ × PriceLevel)) (p : ℚ) : List (ℚ × PriceLevel) :=
  match ls with
  | [] => []
  | (k, L) :: rest =>
    if k = p then rest else (k, L) :: lvlsErase rest p

/-- The order book of `src/engine.rs` (`OrderBook` there): plain maps, no
latency plumbing. -/
structure EngBook where
  bids : List (ℚ × PriceLevel)
  asks : List (ℚ × PriceLevel)
  orders : List (Nat × Order)
deriving DecidableEq, Repr

/-- `OrderBook::execute_match` (`src/engine.rs`): fill
`min(incoming.remaining, level.quantity)` against the aggregate level quantity
(not against individual queued orders), decrement the level aggregate, drop the
level at zero, and return a clone of the incoming order carrying the fill
quantity and level price as the "matched order".  Returns the updated opposite
side, the updated incoming order and the match. -/
def engExecuteMatch (side_book : List (ℚ × PriceLevel)) (incoming : Order)
    (p : ℚ) : Option (List (ℚ × PriceLevel) × Order × Order) :=
  match lvlsFind side_book p with
  | none => none
  | some L =>
    let mq := min incoming.remaining_quantity L.quantity
    let inc2 :=
      { incoming with
        filled_quantity := incoming.filled_quantity + mq
        status :=
          if incoming.quantity - (incoming.filled_quantity + mq) ≤ 0 then
            OrderStatus.filled
          else OrderStatus.partiallyFilled }
    let L2 := { L with quantity := L.quantity - mq, order_count := L.order_count - 1 }
    let side2 := if L2.quantity = 0 then lvlsErase side_book p else lvlsSet side_book p L2
    let matched := { inc2 with filled_quantity := mq, price := some p }
    some (side2, inc2, matched)

/-- `OrderBook::match_order` (`src/engine.rs`): the Rust `while` loop, modelled
with explicit fuel (the loop's termination is not structural; every use below
instantiates the fuel at a concrete input where it is ample).  Buys repeatedly
hit the best (lowest) ask while `order.price ≥ best_ask` (market orders always),
sells the best (highest) bid while `order.price ≤ best_bid`. -/
def engMatchOrder (fuel : Nat) (b : EngBook) (incoming : Order) :
    EngBook × Order × List Order :=
  match fuel with
  | 0 => (b, incoming, [])
  | Nat.succ f =>
    if 0 < incoming.remaining_quantity then
      match incoming.side with
      | .buy =>
        match b.asks.head? with
        | none => (b, incoming, [])
        | some e =>
          let proceed : Bool :=
            match incoming.price with
            | some op => e.1 ≤ op
            | none => true
          if proceed then
            match engExecuteMatch b.asks incoming e.1 with
            | some r =>
              let res := engMatchOrder f { b with asks := r.1 } r.2.1
              (res.1, res.2.1, r.2.2 :: res.2.2)
            | none => (b, incoming, [])
          else (b, incoming, [])
      | .sell =>
        match b.bids.getLast? with
        | none => (b, incoming, [])
        | some e =>
          let proceed : Bool :=
            match incoming.price with
            | some op => op ≤ e.1
            | none => true
          if proceed then
            match engExecuteMatch b.bids incoming e.1 with
            | some r =>
              let res := engMatchOrder f { b with bids := r.1 } r.2.1
              (res.1, res.2.1, r.2.2 :: res.2.2)
            | none => (b, incoming, [])
          else (b, incoming, [])
    else (b, incoming, [])

/-- Insert-or-create a level and bump only its aggregates (`src/engine.rs`
`add_to_book` mutates `level.quantity` and `level.order_count` but never pushes
the order onto the level's `orders` queue). -/
def lvlsBump (ls : List (ℚ × PriceLevel)) (p : ℚ) (q : ℚ) :
    List (ℚ × PriceLevel) :=
  match ls with
  | [] => [(p, { price := p, quantity := q, order_count := 1, orders := [] })]
  | (k, L) :: rest =>
    if p < k then
      (p, { price := p, quantity := q, order_count := 1, orders := [] }) :: (k, L) :: rest
    else if p = k then
      (k, { L with quantity := L.quantity + q, order_count := L.order_count + 1 }) :: rest
    else (k, L) :: lvlsBump rest p q

/-- `OrderBook::add_to_book` (`src/engine.rs`): priced orders with a positive
remainder bump the level aggregates and are stored in the id map. -/
def engAddToBook (b : EngBook) (o : Order) : EngBook :=
  match o.price with
  | none => b
  | some p =>
    if 0 < o.remaining_quantity then
      match o.side with
      | .buy =>
        { b with bids := lvlsBump b.bids p o.remaining_quantity
                 orders := omapInsert b.orders o.id o }
      | .sell =>
        { b with asks := lvlsBump b.asks p o.remaining_quantity
                 orders := omapInsert b.orders o.id o }
    else b

/-- `OrderBook::add_order` (`src/engine.rs`): match first, then rest any
positive remainder. -/
def engAddOrder (fuel : Nat) (b : EngBook) (o : Order) : EngBook × List Order :=
  let res := engMatchOrder fuel b o
  let rem := res.2.1
  if 0 < rem.remaining_quantity then (engAddToBook res.1 rem, res.2.2)
  else (res.1, res.2.2)

/- ------------------------------------------------------------------ -/
/- Latency tracker, `src/utils/latency.rs`.                            -/
/- ------------------------------------------------------------------ -/

/-- `LatencyTracker`: the `VecDeque` ring of the most recent samples (front of
the list = oldest) and its configured capacity. -/
structure LatencyTracker where
  samples : List Nat
  max_samples : Nat
deriving DecidableEq, Repr

/-- `LatencyTracker::new`. -/
def LatencyTracker.new (n : Nat) : LatencyTracker :=
  { samples := [], max_samples := n }

/-- `LatencyTracker::record_latency`: pop the oldest sample when at (or above)
capacity, then push the new one. -/
def LatencyTracker.record_latency (t : LatencyTracker) (x : Nat) : LatencyTracker :=
  if t.max_samples ≤ t.samples.length then
    { t with samples := t.samples.tail ++ [x] }
  else { t with samples := t.samples ++ [x] }

/-- A whole sequence of `record_latency` calls. -/
def LatencyTracker.record_all (t : LatencyTracker) (xs : List Nat) : LatencyTracker :=
  xs.foldl LatencyTracker.record_latency t

/-- `LatencyDistribution` (`src/utils/latency.rs`); the `f64` mean is modelled
as an exact rational. -/
structure LatencyDistribution where
  min : Nat
  max : Nat
  mean : ℚ
  p50 : Nat
  p95 : Nat
  p99 : Nat
  p999 : Nat
  sample_count : Nat
deriving DecidableEq, Repr

/-- `LatencyDistribution::default` (`min = u64::MAX`). -/
def defaultLatencyDistribution : LatencyDistribution :=
  { min := 2 ^ 64 - 1, max := 0, mean := 0, p50 := 0, p95 := 0, p99 := 0,
    p999 := 0, sample_count := 0 }

/-- `LatencyTracker::get_distribution`: sort the held samples ascending and read
`min`/`max` from the ends and the quantiles at indices `len*p/100` (resp.
`len*999/1000`), each defaulting to `0` exactly like `.unwrap_or(0)`. -/
def LatencyTracker.get_distribution (t : LatencyTracker) : LatencyDistribution :=
  if t.samples.isEmpty then defaultLatencyDistribution
  else
    let sorted := t.samples.mergeSort (· ≤ ·)
    let len := sorted.length
    { min := sorted.head?.getD 0
      max := sorted.getLast?.getD 0
      mean := (sorted.sum : ℚ) / (len : ℚ)
      p50 := (sorted[len * 50 / 100]?).getD 0
      p95 := (sorted[len * 95 / 100]?).getD 0
      p99 := (sorted[len * 99 / 100]?).getD 0
      p999 := (sorted[len * 999 / 1000]?).getD 0
      sample_count := len }

/- ------------------------------------------------------------------ -/
/- Position / PnL bookkeeping.                                         -/
/- ------------------------------------------------------------------ -/

/-- The signed fill delta of spec §4.5: `+quantity` for a buy fill, `-quantity`
for a sell fill (the `trade_quantity` computed at the top of
`Position::update_from_fill`). -/
def signed_delta (side : OrderSide) (quantity : ℚ) : ℚ :=
  match side with
  | .buy => quantity
  | .sell => -quantity

/-- `Decimal::signum` (−1, 0 or 1). -/
def qsignum (x : ℚ) : ℚ :=
  if 0 < x then 1 else if x < 0 then -1 else 0

/-- `Position` of `src/services/trading_service.rs` (timestamp omitted). -/
structure TSPosition where
  quantity : ℚ
  average_price : ℚ
  unrealized_pnl : ℚ
  realized_pnl : ℚ
deriving DecidableEq, Repr

/-- `Position::update_from_fill` (`src/services/trading_service.rs`): signed
delta is `+quantity` for a buy and `-quantity` for a sell; a flat position is
opened at the fill price; a same-signed delta averages the total signed cost
over the new signed quantity; an opposite-signed delta realizes PnL on
`min(|Δ|, |q|)`, then zeroes the average when flat or re-bases it at the fill
price on a reversal. -/
def TSPosition.update_from_fill (pos : TSPosition) (side : OrderSide)
    (quantity price : ℚ) : TSPosition :=
  let trade_quantity := signed_delta side quantity
  if pos.quantity = 0 then
    { pos with quantity := trade_quantity, average_price := price }
  else if (0 < pos.quantity) ↔ (0 < trade_quantity) then
    let total_cost := pos.quantity * pos.average_price + trade_quantity * price
    let q2 := pos.quantity + trade_quantity
    { pos with
      quantity := q2
      average_price := if q2 = 0 then pos.average_price else total_cost / q2 }
  else
    let reduction := min |trade_quantity| |pos.quantity|
    let realized :=
      match side with
      | .buy => (pos.average_price - price) * reduction
      | .sell => (price - pos.average_price) * reduction
    let q2 := pos.quantity + trade_quantity
    { pos with
      realized_pnl := pos.realized_pnl + realized
      quantity := q2
      average_price :=
        if q2 = 0 then 0
        else if qsignum q2 ≠ qsignum (q2 - trade_quantity) then price
        else pos.average_price }

/-- `PositionSide` of `src/services/portfolio_service.rs`. -/
inductive PositionSide where
  | long
  | short
  | flat
deriving DecidableEq, Repr

/-- The position fields of `src/services/portfolio_service.rs` touched by
`update_position_from_execution` (timestamps omitted). -/
structure PFPosition where
  quantity : ℚ
  average_cost : ℚ
  market_value : ℚ
  realized_pnl : ℚ
  pside : PositionSide
  trade_count : Nat
deriving DecidableEq, Repr

/-- `PortfolioService::update_position_from_execution`
(`src/services/portfolio_service.rs`), restricted to one position: takes the
position, the portfolio cash balance and the portfolio-level realized PnL, and
returns their updated values.  Note the "adding" branch divides the *signed*
`quantity * average_cost + trade_value` by `|new quantity|`. -/
def pfUpdatePositionFromExecution (pos : PFPosition) (cash prealized : ℚ)
    (side : OrderSide) (exec_quantity fill_price : ℚ) :
    PFPosition × ℚ × ℚ :=
  let trade_value := exec_quantity * fill_price
  let is_buy := side = OrderSide.buy
  let step :=
    if pos.quantity = 0 then
      ({ pos with
         quantity := if is_buy then exec_quantity else -exec_quantity
         average_cost := fill_price
         market_value := trade_value
         pside := if is_buy then PositionSide.long else PositionSide.short }, (0 : ℚ))
    else
      let old_quantity := pos.quantity
      let delta := if is_buy then exec_quantity else -exec_quantity
      if (0 < old_quantity) ↔ (0 < delta) then
        let total_cost := pos.quantity * pos.average_cost + trade_value
        let q2 := pos.quantity + delta
        ({ pos with
           quantity := q2
           average_cost := if q2 = 0 then pos.average_cost else total_cost / |q2| },
         (0 : ℚ))
      else
        let reduction := min |delta| |old_quantity|
        let realized :=
          if is_buy then (pos.average_cost - fill_price) * reduction
          else (fill_price - pos.average_cost) * reduction
        let q2 := old_quantity + delta
        ({ pos with
           realized_pnl := pos.realized_pnl + realized
           quantity := q2
           average_cost :=
             if q2 = 0 then 0
             else if qsignum q2 ≠ qsignum old_quantity then fill_price
             else pos.average_cost
           pside :=
             if q2 = 0 then PositionSide.flat
             else if qsignum q2 ≠ qsignum old_quantity then
               (if 0 < q2 then PositionSide.long else PositionSide.short)
             else pos.pside }, realized)
  let pos2 := { step.1 with trade_count := step.1.trade_count + 1 }
  let cash2 := cash + (if is_buy then -trade_value else trade_value)
  (pos2, cash2, prealized + step.2)

/-- The price-level map of one side of the book. -/
def OrderBook.side_levels (b : OrderBook) : OrderSide → List (ℚ × PriceLevel)
  | .buy => b.bids
  | .sell => b.asks

/- ------------------------------------------------------------------ -/
/- Concrete scenario states used by the boundary results below.        -/
/- ------------------------------------------------------------------ -/

/-- Spec §8 scenario 4: a market buy of quantity 1 (no price). -/
def mktBuyOrder : Order :=
  { id := 1, side := .buy, order_type := .market, price := none,
    quantity := 1, filled_quantity := 0, status := .pending }

/-- Spec §8 scenario 1: a resting sell limit, quantity 1 at 50000. -/
def sellOrder50k : Order :=
  { id := 1, side := .sell, order_type := .limit, price := some 50000,
    quantity := 1, filled_quantity := 0, status := .pending }

/-- Spec §8 scenario 1: the crossing buy limit, quantity 1 at 50000. -/
def buyOrder50k : Order :=
  { id := 2, side := .buy, order_type := .limit, price := some 50000,
    quantity := 1, filled_quantity := 0, status := .pending }

/-- The book after resting `sellOrder50k` on an empty book. -/
def bkAfterSell : OrderBook := (OrderBook.empty.add_order sellOrder50k).1

/-- The book and reports after then submitting the crossing `buyOrder50k`. -/
def bkCross : OrderBook × List ExecutionReport := bkAfterSell.add_order buyOrder50k

/-- Resting sell A for the `src/engine.rs` matcher: quantity 1 at 100. -/
def engOrderA : Order :=
  { id := 1, side := .sell, order_type := .limit, price := some 100,
    quantity := 1, filled_quantity := 0, status := .pending }

/-- Resting sell B (arrives after A): quantity 1 at 100. -/
def engOrderB : Order :=
  { id := 2, side := .sell, order_type := .limit, price := some 100,
    quantity := 1, filled_quantity := 0, status := .pending }

/-- Incoming buy limit, quantity 3 at 100, against A and B. -/
def engTaker : Order :=
  { id := 3, side := .buy, order_type := .limit, price := some 100,
    quantity := 3, filled_quantity := 0, status := .pending }

/-- The empty `src/engine.rs` book. -/
def engBook0 : EngBook := { bids := [], asks := [], orders := [] }

/-- The `src/engine.rs` book holding resting sells A then B at 100. -/
def engBook2 : EngBook :=
  (engAddOrder 10 (engAddOrder 10 engBook0 engOrderA).1 engOrderB).1

/-- A terminally-filled order, for the cancel-of-terminal-order boundary. -/
def filledOrder : Order :=
  { id := 7, side := .buy, order_type := .limit, price := some 10,
    quantity := 1, filled_quantity := 1, status := .filled }

/-- A book whose lookup map holds `filledOrder` (status `Filled`). -/
def bkTerminal : OrderBook :=
  { bids := [], asks := [], orders := [(7, filledOrder)] }

/- ------------------------------------------------------------------ -/
/- Theorems.                                                           -/
/- ------------------------------------------------------------------ -/

/-- C1: the claim (spec §4.1, §8) says a market order whose quantity the
opposite side cannot fully fill has its unfilled remainder rejected — status
`Rejected`, `cumulativeQuantity` = quantity matched (0 on an empty book) — and
is never rested.  The code does not do this: `OrderBook::add_order` on an empty
opposite side emits a single `New` report with status `Pending` (not
`Rejected`) for the whole market order and inserts the order into the
order-lookup map (it is only kept out of the price levels because a market
order has no price).  This theorem evaluates the embedded `add_order` at the
failing input, spec §8 scenario 4. -/
theorem market_order_into_empty_book_not_rejected :
    (OrderBook.empty.add_order mktBuyOrder).2 =
      [{ order_id := 1, side := .buy, execution_type := .new,
         order_status := .pending, price := none, quantity := 1,
         cumulative_quantity := 0, leaves_quantity := 1,
         last_price := none, last_quantity := none }] ∧
    (OrderBook.empty.add_order mktBuyOrder).1.get_order 1 = some mktBuyOrder ∧
    (OrderBook.empty.add_order mktBuyOrder).1.asks = [] ∧
    (OrderBook.empty.add_order mktBuyOrder).1.bids = [] := by
  norm_num [OrderBook.add_order, OrderBook.empty, mktBuyOrder,
    OrderBook.get_best_ask_price, OrderBook.get_best_bid_price,
    Order.is_fully_filled, Order.remaining_quantity, new_order_report,
    OrderBook.add_order_to_price_level, OrderBook.get_order, omapLookup,
    omapInsert, omapRemove]

/-- C2: the claim (spec §8, conservation of quantity) says
`filledQuantity = Σ lastQuantity` over the reports of every order, i.e. that
reported fills are applied to the incoming and resting orders' state.  The code
violates this: `OrderBook::find_matches` only reads the book, and `add_order`
re-checks `is_fully_filled` on the untouched incoming order, so after the
spec §8 scenario-1 cross (sell 1 @ 50000, then buy 1 @ 50000) the taker's
reports carry `lastQuantity` summing to 1 while both stored orders still have
`filledQuantity = 0` (and the fully-matched maker still rests). -/
theorem conservation_of_quantity_violated :
    ((bkCross.2.filter (fun r => r.order_id == 2)).map
        (fun r => r.last_quantity.getD 0)).sum = 1 ∧
    (bkCross.1.get_order 2).map Order.filled_quantity = some 0 ∧
    (bkCross.1.get_order 1).map Order.filled_quantity = some 0 := by
  norm_num [bkCross, bkAfterSell, OrderBook.add_order, OrderBook.empty,
    sellOrder50k, buyOrder50k, OrderBook.get_best_ask_price,
    OrderBook.get_best_bid_price, Order.is_fully_filled,
    Order.remaining_quantity, Order.can_match, OrderBook.find_matches,
    findMatchesLevels, findMatchesQueue, create_execution_report,
    new_order_report, OrderBook.add_order_to_price_level, lvlsAddOrder,
    PriceLevel.new, PriceLevel.add_order, omapInsert, omapRemove, omapLookup,
    OrderBook.get_order, OrderSide.opposite]

/-- C3: the claim (spec §3, §8) says that after every `add(order)` the best bid
is strictly below the best ask whenever both sides are non-empty.  The code
violates it: after the spec §8 scenario-1 cross (sell 1 @ 50000, then buy
1 @ 50000) the incoming buy is matched in full, yet — its `filled_quantity`
never having been updated — it is also rested, leaving
`bestBid = bestAsk = 50000` with both sides non-empty. -/
theorem crossed_book_persists_after_add_order :
    bkCross.1.get_best_bid_price = some 50000 ∧
    bkCross.1.get_best_ask_price = some 50000 ∧
    ¬ (50000 : ℚ) < 50000 := by
  norm_num [bkCross, bkAfterSell, OrderBook.add_order, OrderBook.empty,
    sellOrder50k, buyOrder50k, OrderBook.get_best_ask_price,
    OrderBook.get_best_bid_price, Order.is_fully_filled,
    Order.remaining_quantity, Order.can_match, OrderBook.find_matches,
    findMatchesLevels, findMatchesQueue, create_execution_report,
    new_order_report, OrderBook.add_order_to_price_level, lvlsAddOrder,
    PriceLevel.new, PriceLevel.add_order, omapInsert, omapRemove,
    OrderSide.opposite]

/-- A non-positive incoming remainder matches nothing. -/
theorem findMatchesQueue_nonpos (tid : Nat) (ms : OrderSide) (price rem : ℚ)
    (resting : List Order) (h : rem ≤ 0) :
    (findMatchesQueue tid ms price rem resting).1 = [] := by
  cases resting with
  | nil => rfl
  | cons o rest => simp [findMatchesQueue, if_pos h]

/-- FIFO priority inside one level's queue: if any order strictly after `A`
(with distinct ids) receives a positive fill, then `A` received a fill equal to
its whole remaining quantity. -/
theorem findMatchesQueue_fifo (tid : Nat) (ms : OrderSide) (price : ℚ)
    (A B : Order) (hA : 0 < A.remaining_quantity) (hAB : A.id ≠ B.id) :
    ∀ (l1 : List Order) (rem : ℚ) (l2 l3 : List Order),
      (∀ o ∈ l1, o.id ≠ B.id) →
      (∃ m ∈ (findMatchesQueue tid ms price rem (l1 ++ A :: l2 ++ B :: l3)).1,
          m.maker_order_id = B.id ∧ 0 < m.quantity) →
      ∃ m ∈ (findMatchesQueue tid ms price rem (l1 ++ A :: l2 ++ B :: l3)).1,
        m.maker_order_id = A.id ∧ m.quantity = A.remaining_quantity := by
  intro l1
  induction l1 with
  | nil =>
    intro rem l2 l3 _ hB
    rw [List.nil_append] at hB ⊢
    by_cases hr : rem ≤ 0
    · rw [findMatchesQueue_nonpos _ _ _ _ _ hr] at hB
      obtain ⟨m, hm, -⟩ := hB
      exact absurd hm (List.not_mem_nil m)
    · have hmq : 0 < min rem A.remaining_quantity :=
        lt_min (not_le.mp hr) hA
      simp only [findMatchesQueue, if_neg hr, if_pos hmq] at hB ⊢
      by_cases hle : rem ≤ A.remaining_quantity
      · have hmin : min rem A.remaining_quantity = rem := min_eq_left hle
        have h0 : rem - min rem A.remaining_quantity ≤ 0 := by
          rw [hmin]; simp
        rw [findMatchesQueue_nonpos _ _ _ _ _ h0] at hB
        obtain ⟨m, hm, hmB, -⟩ := hB
        rcases List.mem_cons.mp hm with h1 | h1
        · rw [h1] at hmB
          exact absurd hmB hAB
        · exact absurd h1 (List.not_mem_nil m)
      · have hmin : min rem A.remaining_quantity = A.remaining_quantity :=
          min_eq_right (le_of_lt (not_le.mp hle))
        exact ⟨_, List.mem_cons_self _ _, rfl, hmin⟩
  | cons o l1 ih =>
    intro rem l2 l3 ho hB
    have hoB : o.id ≠ B.id := ho o (List.mem_cons_self o l1)
    have ho2 : ∀ x ∈ l1, x.id ≠ B.id := fun x hx => ho x (List.mem_cons_of_mem o hx)
    rw [List.cons_append] at hB ⊢
    by_cases hr : rem ≤ 0
    · rw [findMatchesQueue_nonpos _ _ _ _ _ hr] at hB
      obtain ⟨m, hm, -⟩ := hB
      exact absurd hm (List.not_mem_nil m)
    · by_cases hmq : 0 < min rem o.remaining_quantity
      · simp only [findMatchesQueue, if_neg hr, if_pos hmq] at hB ⊢
        obtain ⟨m, hm, hmB, hmpos⟩ := hB
        rcases List.mem_cons.mp hm with h1 | h1
        · rw [h1] at hmB
          exact absurd hmB hoB
        · obtain ⟨mA, hmA, hA1, hA2⟩ :=
            ih (rem - min rem o.remaining_quantity) l2 l3 ho2 ⟨m, h1, hmB, hmpos⟩
          exact ⟨mA, List.mem_cons_of_mem _ hmA, hA1, hA2⟩
      · simp only [findMatchesQueue, if_neg hr, if_neg hmq] at hB ⊢
        exact ih rem l2 l3 ho2 hB

/-- Every fill emitted over one level's queue has quantity
`min(incoming remaining at that point, resting remaining)`, where the incoming
remaining at that point is the level-entry remainder minus the fills emitted
before it. -/
theorem findMatchesQueue_fill_quantities (tid : Nat) (ms : OrderSide) (price : ℚ) :
    ∀ (resting : List Order) (rem : ℚ) (pre : List MatchResult) (m : MatchResult)
      (post : List MatchResult),
      (findMatchesQueue tid ms price rem resting).1 = pre ++ m :: post →
      ∃ R ∈ resting, m.maker_order_id = R.id ∧
        m.quantity = min (rem - (pre.map MatchResult.quantity).sum)
          R.remaining_quantity := by
  intro resting
  induction resting with
  | nil =>
    intro rem pre m post h
    simp [findMatchesQueue] at h
  | cons o rest ih =>
    intro rem pre m post h
    by_cases hr : rem ≤ 0
    · rw [findMatchesQueue_nonpos _ _ _ _ _ hr] at h
      exact absurd h.symm (List.append_ne_nil_of_right_ne_nil pre (List.cons_ne_nil m post))
    · by_cases hmq : 0 < min rem o.remaining_quantity
      · simp only [findMatchesQueue, if_neg hr, if_pos hmq] at h
        cases pre with
        | nil =>
          rw [List.nil_append] at h
          have hm := (List.cons.injEq _ _ _ _).mp h
          refine ⟨o, List.mem_cons_self o rest, ?_, ?_⟩
          · rw [← hm.1]
          · rw [← hm.1]
            simp
        | cons x pre2 =>
          rw [List.cons_append] at h
          have hm := (List.cons.injEq _ _ _ _).mp h
          obtain ⟨R, hR, h1, h2⟩ :=
            ih (rem - min rem o.remaining_quantity) pre2 m post hm.2
          refine ⟨R, List.mem_cons_of_mem o hR, h1, ?_⟩
          rw [h2, List.map_cons, List.sum_cons, ← hm.1]
          norm_num
          rw [sub_sub]
      · simp only [findMatchesQueue, if_neg hr, if_neg hmq] at h
        obtain ⟨R, hR, h1, h2⟩ := ih rem pre m post h
        exact ⟨R, List.mem_cons_of_mem o hR, h1, h2⟩

/-- C4 (as amended): price-time priority for `OrderBook::find_matches`
(`src/orderbook/book.rs`), stated on its inner loop `findMatchesQueue` over one
price level's FIFO queue, `rem` being the incoming order's remaining quantity
on arrival at the level.  (1) For resting orders `A` before `B` at the same
price, if `B` receives any positive fill then `A`'s fill is its entire
remaining quantity; (2) every individual fill equals
`min(incoming remaining, resting remaining)`.  (The sibling matcher
`OrderBook::execute_match` in `src/engine.rs` violates the per-order clause —
see the counterexample.) -/
theorem find_matches_price_time_priority :
    (∀ (tid : Nat) (ms : OrderSide) (price : ℚ) (A B : Order)
       (l1 l2 l3 : List Order) (rem : ℚ),
       0 < A.remaining_quantity → A.id ≠ B.id → (∀ o ∈ l1, o.id ≠ B.id) →
       (∃ m ∈ (findMatchesQueue tid ms price rem (l1 ++ A :: l2 ++ B :: l3)).1,
           m.maker_order_id = B.id ∧ 0 < m.quantity) →
       ∃ m ∈ (findMatchesQueue tid ms price rem (l1 ++ A :: l2 ++ B :: l3)).1,
         m.maker_order_id = A.id ∧ m.quantity = A.remaining_quantity) ∧
    (∀ (tid : Nat) (ms : OrderSide) (price : ℚ) (resting : List Order)
       (rem : ℚ) (pre : List MatchResult) (m : MatchResult)
       (post : List MatchResult),
       (findMatchesQueue tid ms price rem resting).1 = pre ++ m :: post →
       ∃ R ∈ resting, m.maker_order_id = R.id ∧
         m.quantity = min (rem - (pre.map MatchResult.quantity).sum)
           R.remaining_quantity) :=
  ⟨fun tid ms price A B l1 l2 l3 rem hA hAB h1 hB =>
      findMatchesQueue_fifo tid ms price A B hA hAB l1 rem l2 l3 h1 hB,
   fun tid ms price resting rem =>
      findMatchesQueue_fill_quantities tid ms price resting rem⟩

/-- Witness for C4's theorem at a concrete input: two resting sells of 1 at
price 100 and an incoming remainder of 2; B is filled, and A's fill is its
whole remaining quantity. -/
theorem find_matches_price_time_priority_witness :
    ∃ m ∈ (findMatchesQueue 9 .sell 100 2 [engOrderA, engOrderB]).1,
      m.maker_order_id = engOrderA.id ∧ m.quantity = engOrderA.remaining_quantity :=
  find_matches_price_time_priority.1 9 .sell 100 engOrderA engOrderB [] [] [] 2
    (by norm_num [engOrderA, Order.remaining_quantity])
    (by norm_num [engOrderA, engOrderB])
    (by simp)
    ⟨{ maker_order_id := 2, taker_order_id := 9, price := 100, quantity := 1,
       maker_side := .sell },
     by norm_num [findMatchesQueue, engOrderA, engOrderB, Order.remaining_quantity],
     rfl, by norm_num⟩

/-- C4, the claim as stated is false on the other cited matcher:
`OrderBook::execute_match` in `src/engine.rs` fills against the aggregate level
quantity, so with resting sells A and B of 1 each at 100 and an incoming buy of
3, it emits a single fill of quantity 2 — not `min(incoming remaining, resting
remaining) = 1` — and neither stored resting order is filled. -/
theorem execute_match_aggregate_fill_counterexample :
    ((engAddOrder 10 engBook2 engTaker).2.map Order.filled_quantity) = [2] ∧
    (omapLookup engBook2.orders 1).map Order.remaining_quantity = some 1 ∧
    (omapLookup engBook2.orders 2).map Order.remaining_quantity = some 1 ∧
    ¬ (2 : ℚ) = min engTaker.remaining_quantity 1 := by
  norm_num [engAddOrder, engMatchOrder, engExecuteMatch, engAddToBook,
    engBook2, engBook0, engOrderA, engOrderB, engTaker, Order.remaining_quantity,
    lvlsFind, lvlsBump, lvlsErase, lvlsSet, omapInsert, omapRemove, omapLookup]

/-- Every match emitted over a level's queue carries that level's price and the
id of one of the level's resting orders as maker. -/
theorem findMatchesQueue_mem (tid : Nat) (ms : OrderSide) (price : ℚ) :
    ∀ (resting : List Order) (rem : ℚ) (m : MatchResult),
      m ∈ (findMatchesQueue tid ms price rem resting).1 →
      m.price = price ∧ m.maker_side = ms ∧
        ∃ R ∈ resting, m.maker_order_id = R.id := by
  intro resting
  induction resting with
  | nil =>
    intro rem m hm
    exact absurd hm (List.not_mem_nil m)
  | cons o rest ih =>
    intro rem m hm
    by_cases hr : rem ≤ 0
    · rw [findMatchesQueue_nonpos _ _ _ _ _ hr] at hm
      exact absurd hm (List.not_mem_nil m)
    · by_cases hmq : 0 < min rem o.remaining_quantity
      · simp only [findMatchesQueue, if_neg hr, if_pos hmq] at hm
        rcases List.mem_cons.mp hm with h1 | h1
        · rw [h1]
          exact ⟨rfl, rfl, o, List.mem_cons_self o rest, rfl⟩
        · obtain ⟨hp, hs, R, hR, hid⟩ := ih (rem - min rem o.remaining_quantity) m h1
          exact ⟨hp, hs, R, List.mem_cons_of_mem o hR, hid⟩
      · simp only [findMatchesQueue, if_neg hr, if_neg hmq] at hm
        obtain ⟨hp, hs, R, hR, hid⟩ := ih rem m hm
        exact ⟨hp, hs, R, List.mem_cons_of_mem o hR, hid⟩

/-- Every match emitted while walking a list of levels carries the key of one
of those levels as its price, with the maker resting in that level's queue. -/
theorem findMatchesLevels_mem (o : Order) (ms : OrderSide) :
    ∀ (ls : List (ℚ × PriceLevel)) (rem : ℚ) (m : MatchResult),
      m ∈ findMatchesLevels o ms ls rem →
      ∃ e ∈ ls, m.price = e.1 ∧ ∃ R ∈ e.2.orders, m.maker_order_id = R.id := by
  intro ls
  induction ls with
  | nil =>
    intro rem m hm
    exact absurd hm (List.not_mem_nil m)
  | cons e rest ih =>
    intro rem m hm
    by_cases hr : rem ≤ 0
    · simp only [findMatchesLevels, if_pos hr] at hm
      exact absurd hm (List.not_mem_nil m)
    · by_cases hc : o.can_match e.1 = true
      · simp only [findMatchesLevels, if_neg hr, if_pos hc] at hm
        rcases List.mem_append.mp hm with h1 | h1
        · obtain ⟨hp, -, R, hR, hid⟩ := findMatchesQueue_mem o.id ms e.1 e.2.orders rem m h1
          exact ⟨e, List.mem_cons_self e rest, hp, R, hR, hid⟩
        · obtain ⟨f, hf, hp, R, hR, hid⟩ := ih _ m h1
          exact ⟨f, List.mem_cons_of_mem e hf, hp, R, hR, hid⟩
      · simp only [findMatchesLevels, if_neg hr, if_neg hc] at hm
        exact absurd hm (List.not_mem_nil m)

/-- C5: resting-price rule.  Every `MatchResult` produced by
`OrderBook::find_matches` (`src/orderbook/book.rs`) carries as its price the
price key of an opposite-side level in which its maker order rests — the
maker's resting price at the moment of the match, never the incoming order's
own limit price. -/
theorem find_matches_resting_price_rule :
    ∀ (b : OrderBook) (o : Order) (m : MatchResult),
      m ∈ b.find_matches o →
      ∃ e ∈ b.side_levels o.side.opposite, m.price = e.1 ∧
        ∃ R ∈ e.2.orders, m.maker_order_id = R.id := by
  intro b o m hm
  cases hside : o.side with
  | buy =>
    rw [OrderBook.find_matches, hside] at hm
    simpa [OrderBook.side_levels, OrderSide.opposite] using
      findMatchesLevels_mem o .sell b.asks o.remaining_quantity m hm
  | sell =>
    rw [OrderBook.find_matches, hside] at hm
    obtain ⟨e, he, hp, hR⟩ :=
      findMatchesLevels_mem o .buy b.bids.reverse o.remaining_quantity m hm
    exact ⟨e, by simpa [OrderBook.side_levels, OrderSide.opposite] using
      List.mem_reverse.mp he, hp, hR⟩

/-- Witness for C5's theorem: the scenario-1 cross (buy 1 @ 50000 against the
book resting sell 1 @ 50000) produces its match at the maker's level. -/
theorem find_matches_resting_price_rule_witness :
    ∃ e ∈ bkAfterSell.side_levels buyOrder50k.side.opposite,
      ({ maker_order_id := 1, taker_order_id := 2, price := 50000, quantity := 1,
         maker_side := .sell } : MatchResult).price = e.1 ∧
      ∃ R ∈ e.2.orders,
        ({ maker_order_id := 1, taker_order_id := 2, price := 50000, quantity := 1,
           maker_side := .sell } : MatchResult).maker_order_id = R.id :=
  find_matches_resting_price_rule bkAfterSell buyOrder50k _
    (by norm_num [bkAfterSell, OrderBook.add_order, OrderBook.empty,
      sellOrder50k, buyOrder50k, OrderBook.get_best_ask_price,
      OrderBook.get_best_bid_price, Order.is_fully_filled,
      Order.remaining_quantity, Order.can_match, OrderBook.find_matches,
      findMatchesLevels, findMatchesQueue, new_order_report,
      OrderBook.add_order_to_price_level, lvlsAddOrder, PriceLevel.new,
      PriceLevel.add_order, omapInsert, omapRemove])

/-- Removing a key from the order-lookup map makes it unfindable. -/
theorem omapLookup_omapRemove_self (m : List (Nat × Order)) (k : Nat) :
    omapLookup (omapRemove m k) k = none := by
  induction m with
  | nil => rfl
  | cons e rest ih =>
    by_cases h : e.1 = k
    · rw [omapRemove, List.filter_cons, if_neg (by simp [h])]
      exact ih
    · have hb : (e.1 == k) = false := by simp [h]
      rw [omapRemove, List.filter_cons, if_pos (by simp [h])]
      rw [omapLookup, List.find?_cons, hb]
      exact ih

/-- A key absent from a level map is not found. -/
theorem lvlsFind_eq_none_of_not_mem (p : ℚ) :
    ∀ (ls : List (ℚ × PriceLevel)), p ∉ ls.map Prod.fst → lvlsFind ls p = none := by
  intro ls
  induction ls with
  | nil => intro _; rfl
  | cons e rest ih =>
    intro h
    rw [List.map_cons] at h
    have h1 : ¬ e.1 = p := fun hc => h (hc ▸ List.mem_cons_self e.1 _)
    have h2 : p ∉ rest.map Prod.fst := fun hc => h (List.mem_cons_of_mem _ hc)
    simpa [lvlsFind, h1] using ih h2

/-- Effect of `remove_order_from_price_level` on the level at the removed
order's price (for a level map with distinct keys): the level loses the order,
and disappears entirely when its queue empties. -/
theorem lvlsFind_lvlsRemoveOrder (p : ℚ) (oid : Nat) :
    ∀ (ls : List (ℚ × PriceLevel)), (ls.map Prod.fst).Nodup →
      lvlsFind (lvlsRemoveOrder ls p oid) p =
        match lvlsFind ls p with
        | none => none
        | some L =>
          if (L.remove_order oid).is_empty then none
          else some (L.remove_order oid) := by
  intro ls
  induction ls with
  | nil => intro _; rfl
  | cons e rest ih =>
    intro hnd
    rw [List.map_cons, List.nodup_cons] at hnd
    by_cases h : e.1 = p
    · have hnotin : p ∉ rest.map Prod.fst := h ▸ hnd.1
      by_cases hemp : (e.2.remove_order oid).is_empty
      · simp [lvlsRemoveOrder, lvlsFind, h, hemp,
          lvlsFind_eq_none_of_not_mem p rest hnotin]
      · simp [lvlsRemoveOrder, lvlsFind, h, hemp]
    · simpa [lvlsRemoveOrder, lvlsFind, h] using ih hnd.2

/-- C6: cancel contract of `OrderBook::cancel_order`
(`src/orderbook/book.rs`).  (1) Cancelling a stored order with status `Pending`
or `PartiallyFilled` returns the `Cancelled` report — status `Cancelled`,
`leavesQuantity` 0, `cumulativeQuantity` = the quantity filled before the
cancel — removes the order from the lookup map, and removes it from its price
level, deleting the level when its queue empties.  (2) Cancel of an unknown
order returns `none` and leaves the book unchanged.  (3) Cancel of an order in
a terminal status returns `none` (no report). -/
theorem cancel_order_contract :
    (∀ (b : OrderBook) (oid : Nat) (o : Order) (p : ℚ) (L : PriceLevel),
      omapLookup b.orders oid = some o →
      (o.status = .pending ∨ o.status = .partiallyFilled) →
      o.price = some p →
      lvlsFind (b.side_levels o.side) p = some L →
      ((b.side_levels o.side).map Prod.fst).Nodup →
      (b.cancel_order oid).1 = some (cancel_report o) ∧
      (cancel_report o).order_status = .cancelled ∧
      (cancel_report o).execution_type = .canceled ∧
      (cancel_report o).leaves_quantity = 0 ∧
      (cancel_report o).cumulative_quantity = o.filled_quantity ∧
      OrderBook.get_order (b.cancel_order oid).2 oid = none ∧
      lvlsFind (((b.cancel_order oid).2).side_levels o.side) p =
        (if (L.remove_order o.id).is_empty then none
         else some (L.remove_order o.id))) ∧
    (∀ (b : OrderBook) (oid : Nat),
      omapLookup b.orders oid = none → b.cancel_order oid = (none, b)) ∧
    (∀ (b : OrderBook) (oid : Nat) (o : Order),
      omapLookup b.orders oid = some o →
      o.status ≠ .pending → o.status ≠ .partiallyFilled →
      (b.cancel_order oid).1 = none) := by
  refine ⟨?_, ?_, ?_⟩
  · intro b oid o p L h1 h2 hp hL hnd
    have hcancel : b.cancel_order oid =
        (some (cancel_report o),
         OrderBook.remove_order_from_price_level
           { b with orders := omapRemove b.orders oid } o) := by
      rw [OrderBook.cancel_order, h1]
      simp [if_pos h2]
    refine ⟨by rw [hcancel], rfl, rfl, rfl, rfl, ?_, ?_⟩
    · rw [hcancel]
      cases hs : o.side with
      | buy =>
        simp only [OrderBook.remove_order_from_price_level, hp, hs,
          OrderBook.get_order]
        exact omapLookup_omapRemove_self b.orders oid
      | sell =>
        simp only [OrderBook.remove_order_from_price_level, hp, hs,
          OrderBook.get_order]
        exact omapLookup_omapRemove_self b.orders oid
    · rw [hcancel]
      cases hs : o.side with
      | buy =>
        rw [hs] at hL hnd
        simp only [OrderBook.side_levels] at hL hnd
        simp only [OrderBook.remove_order_from_price_level, hp, hs,
          OrderBook.side_levels]
        rw [lvlsFind_lvlsRemoveOrder p o.id b.bids hnd, hL]
      | sell =>
        rw [hs] at hL hnd
        simp only [OrderBook.side_levels] at hL hnd
        simp only [OrderBook.remove_order_from_price_level, hp, hs,
          OrderBook.side_levels]
        rw [lvlsFind_lvlsRemoveOrder p o.id b.asks hnd, hL]
  · intro b oid h1
    rw [OrderBook.cancel_order, h1]
  · intro b oid o h1 h2 h3
    rw [OrderBook.cancel_order, h1]
    simp [if_neg (not_or.mpr ⟨h2, h3⟩)]

/-- Witness for C6's theorem: cancelling the resting `Pending` sell of
scenario 1 returns the `Cancelled` report and deletes its (now empty) level. -/
theorem cancel_order_contract_witness :
    (bkAfterSell.cancel_order 1).1 = some (cancel_report sellOrder50k) ∧
    (cancel_report sellOrder50k).order_status = .cancelled ∧
    (cancel_report sellOrder50k).execution_type = .canceled ∧
    (cancel_report sellOrder50k).leaves_quantity = 0 ∧
    (cancel_report sellOrder50k).cumulative_quantity = sellOrder50k.filled_quantity ∧
    OrderBook.get_order (bkAfterSell.cancel_order 1).2 1 = none ∧
    lvlsFind (((bkAfterSell.cancel_order 1).2).side_levels sellOrder50k.side) 50000 =
      (if ((⟨50000, 1, 1, [sellOrder50k]⟩ : PriceLevel).remove_order
            sellOrder50k.id).is_empty
       then none
       else some ((⟨50000, 1, 1, [sellOrder50k]⟩ : PriceLevel).remove_order
            sellOrder50k.id)) :=
  cancel_order_contract.1 bkAfterSell 1 sellOrder50k 50000
    ⟨50000, 1, 1, [sellOrder50k]⟩
    (by norm_num [bkAfterSell, OrderBook.add_order, OrderBook.empty,
      sellOrder50k, OrderBook.get_best_bid_price, Order.is_fully_filled,
      Order.remaining_quantity, new_order_report,
      OrderBook.add_order_to_price_level, lvlsAddOrder, PriceLevel.new,
      PriceLevel.add_order, omapInsert, omapRemove, omapLookup])
    (Or.inl rfl) rfl
    (by norm_num [bkAfterSell, OrderBook.add_order, OrderBook.empty,
      sellOrder50k, OrderBook.get_best_bid_price, Order.is_fully_filled,
      Order.remaining_quantity, new_order_report,
      OrderBook.add_order_to_price_level, lvlsAddOrder, PriceLevel.new,
      PriceLevel.add_order, omapInsert, omapRemove, OrderBook.side_levels,
      lvlsFind])
    (by norm_num [bkAfterSell, OrderBook.add_order, OrderBook.empty,
      sellOrder50k, OrderBook.get_best_bid_price, Order.is_fully_filled,
      Order.remaining_quantity, new_order_report,
      OrderBook.add_order_to_price_level, lvlsAddOrder, PriceLevel.new,
      PriceLevel.add_order, omapInsert, omapRemove, OrderBook.side_levels])

/-- C10: `OrderBook::cancel_order` on a stored order whose status is terminal
(neither `Pending` nor `PartiallyFilled`) returns `None` and produces no
report, yet still mutates state: the order was removed from the order-lookup
map before the status check, so a subsequent `get_order` returns `None`
although it succeeded before the cancel. -/
theorem cancel_terminal_order_still_removes_from_lookup :
    ∀ (b : OrderBook) (oid : Nat) (o : Order),
      omapLookup b.orders oid = some o →
      o.status ≠ .pending → o.status ≠ .partiallyFilled →
      (b.cancel_order oid).1 = none ∧
      b.get_order oid = some o ∧
      OrderBook.get_order (b.cancel_order oid).2 oid = none := by
  intro b oid o h1 h2 h3
  have hc : b.cancel_order oid =
      (none, { b with orders := omapRemove b.orders oid }) := by
    rw [OrderBook.cancel_order, h1]
    simp [if_neg (not_or.mpr ⟨h2, h3⟩)]
  refine ⟨by rw [hc], h1, ?_⟩
  rw [hc]
  exact omapLookup_omapRemove_self b.orders oid

/-- Witness for C10's theorem: cancelling the stored `Filled` order returns
`None` but erases it from the lookup map. -/
theorem cancel_terminal_order_still_removes_from_lookup_witness :
    (bkTerminal.cancel_order 7).1 = none ∧
    bkTerminal.get_order 7 = some filledOrder ∧
    OrderBook.get_order (bkTerminal.cancel_order 7).2 7 = none :=
  cancel_terminal_order_still_removes_from_lookup bkTerminal 7 filledOrder
    (by norm_num [bkTerminal, omapLookup])
    (by simp [filledOrder])
    (by simp [filledOrder])

/-- C7 (as amended): average cost on adds, for
`Position::update_from_fill` (`src/services/trading_service.rs`).  For a fill
whose signed delta has the sign of the current non-zero position — including
short positions — the new average cost is
`(|q|·a + |Δ|·P) / (|q| + |Δ|)` and the quantity becomes `q + Δ`.
(`PortfolioService::update_position_from_execution` instead divides the signed
cost by `|q + Δ|`, which disagrees for shorts — see the counterexample.) -/
theorem update_from_fill_average_cost_add :
    ∀ (pos : TSPosition) (side : OrderSide) (quantity price : ℚ),
      0 < quantity →
      pos.quantity ≠ 0 →
      ((0 < pos.quantity) ↔ (0 < signed_delta side quantity)) →
      (pos.update_from_fill side quantity price).average_price =
        (|pos.quantity| * pos.average_price +
          |signed_delta side quantity| * price) /
          (|pos.quantity| + |signed_delta side quantity|) ∧
      (pos.update_from_fill side quantity price).quantity =
        pos.quantity + signed_delta side quantity := by
  intro pos side quantity price hq h0 hsame
  have hdne : signed_delta side quantity ≠ 0 := by
    cases side
    · simpa [signed_delta] using ne_of_gt hq
    · simpa [signed_delta] using ne_of_gt hq
  have hsum : pos.quantity + signed_delta side quantity ≠ 0 := by
    by_cases hpos : 0 < pos.quantity
    · exact ne_of_gt (add_pos hpos (hsame.mp hpos))
    · have hneg : pos.quantity < 0 := lt_of_le_of_ne (not_lt.mp hpos) h0
      have hdneg : signed_delta side quantity < 0 :=
        lt_of_le_of_ne (not_lt.mp (fun hdp => hpos (hsame.mpr hdp))) hdne
      exact ne_of_lt (add_neg hneg hdneg)
  have hupdate : pos.update_from_fill side quantity price =
      { pos with
        quantity := pos.quantity + signed_delta side quantity
        average_price :=
          (pos.quantity * pos.average_price + signed_delta side quantity * price) /
            (pos.quantity + signed_delta side quantity) } := by
    simp only [TSPosition.update_from_fill]
    rw [if_neg h0, if_pos hsame, if_neg hsum]
  rw [hupdate]
  refine ⟨?_, rfl⟩
  by_cases hpos : 0 < pos.quantity
  · have hdpos : 0 < signed_delta side quantity := hsame.mp hpos
    rw [abs_of_pos hpos, abs_of_pos hdpos]
  · have hneg : pos.quantity < 0 := lt_of_le_of_ne (not_lt.mp hpos) h0
    have hdneg : signed_delta side quantity < 0 :=
      lt_of_le_of_ne (not_lt.mp (fun hdp => hpos (hsame.mpr hdp))) hdne
    rw [abs_of_neg hneg, abs_of_neg hdneg,
      show -pos.quantity * pos.average_price +
          -signed_delta side quantity * price =
          -(pos.quantity * pos.average_price + signed_delta side quantity * price) by
        ring,
      show -pos.quantity + -signed_delta side quantity =
          -(pos.quantity + signed_delta side quantity) by ring,
      neg_div_neg_eq]

/-- Witness for C7's theorem: a short position of 1 at average 100 sells 1 more
at 200; the average cost becomes `(1·100 + 1·200) / 2 = 150`. -/
theorem update_from_fill_average_cost_add_witness :
    ((⟨-1, 100, 0, 0⟩ : TSPosition).update_from_fill .sell 1 200).average_price =
      (|(-1 : ℚ)| * 100 + |signed_delta .sell 1| * 200) /
        (|(-1 : ℚ)| + |signed_delta .sell 1|) ∧
    ((⟨-1, 100, 0, 0⟩ : TSPosition).update_from_fill .sell 1 200).quantity =
      -1 + signed_delta .sell 1 :=
  update_from_fill_average_cost_add ⟨-1, 100, 0, 0⟩ .sell 1 200 (by norm_num)
    (by norm_num) (by norm_num [signed_delta])

/-- C7, the claim as stated is false on
`PortfolioService::update_position_from_execution`
(`src/services/portfolio_service.rs`): adding 1 to a short position of 1 with
average cost 100 at fill price 200 sets average cost
`(q·a + |Δ|·P)/|q+Δ| = (−100 + 200)/2 = 50`, not the claim's
`(|q|·a + |Δ|·P)/(|q|+|Δ|) = 150`. -/
theorem portfolio_short_add_average_cost_counterexample :
    (pfUpdatePositionFromExecution
        ⟨-1, 100, 0, 0, .short, 0⟩ 0 0 .sell 1 200).1.average_cost = 50 ∧
    (|(-1 : ℚ)| * 100 + |signed_delta .sell 1| * 200) /
        (|(-1 : ℚ)| + |signed_delta .sell 1|) = 150 ∧
    (50 : ℚ) ≠ 150 := by
  have hsb : (OrderSide.sell = OrderSide.buy) = False := by simp
  norm_num [pfUpdatePositionFromExecution, qsignum, signed_delta, hsb]

/-- `Decimal::signum` of a positive decimal is 1. -/
theorem qsignum_pos {x : ℚ} (h : 0 < x) : qsignum x = 1 := by
  rw [qsignum, if_pos h]

/-- `Decimal::signum` of a negative decimal is −1. -/
theorem qsignum_neg {x : ℚ} (h : x < 0) : qsignum x = -1 := by
  rw [qsignum, if_neg (not_lt.mpr h.le), if_pos h]

/-- Reduction/reversal behaviour of `Position::update_from_fill`
(`src/services/trading_service.rs`): realized PnL gains
`min(|Δ|, |q|) · (P − a) · sign(q)`; the average is kept on a pure reduction,
zeroed when the position goes flat, and re-based at `P` on a reversal. -/
theorem update_from_fill_reduce (pos : TSPosition) (side : OrderSide)
    (quantity price : ℚ) (hq : 0 < quantity) (h0 : pos.quantity ≠ 0)
    (hopp : ¬((0 < pos.quantity) ↔ (0 < signed_delta side quantity))) :
    (pos.update_from_fill side quantity price).realized_pnl =
      pos.realized_pnl +
        min |signed_delta side quantity| |pos.quantity| *
          (price - pos.average_price) * qsignum pos.quantity ∧
    (|signed_delta side quantity| < |pos.quantity| →
      (pos.update_from_fill side quantity price).average_price =
        pos.average_price) ∧
    (|signed_delta side quantity| = |pos.quantity| →
      (pos.update_from_fill side quantity price).average_price = 0) ∧
    (|pos.quantity| < |signed_delta side quantity| →
      (pos.update_from_fill side quantity price).average_price = price) := by
  cases side with
  | buy =>
    have hd : signed_delta .buy quantity = quantity := rfl
    rw [hd] at hopp ⊢
    have hqneg : pos.quantity < 0 := by
      rcases lt_or_gt_of_ne h0 with h | h
      · exact h
      · exact absurd (iff_of_true h hq) hopp
    have habs_d : |quantity| = quantity := abs_of_pos hq
    have habs_q : |pos.quantity| = -pos.quantity := abs_of_neg hqneg
    have hq2d : pos.quantity + quantity - quantity = pos.quantity := by ring
    have hupdate : pos.update_from_fill .buy quantity price =
        { pos with
          realized_pnl := pos.realized_pnl +
            (pos.average_price - price) * min |quantity| |pos.quantity|
          quantity := pos.quantity + quantity
          average_price :=
            if pos.quantity + quantity = 0 then 0
            else if qsignum (pos.quantity + quantity) ≠
                qsignum (pos.quantity + quantity - quantity) then price
            else pos.average_price } := by
      simp only [TSPosition.update_from_fill, signed_delta]
      rw [if_neg h0, if_neg hopp]
    refine ⟨?_, ?_, ?_, ?_⟩
    · rw [hupdate]
      show pos.realized_pnl + (pos.average_price - price) * min |quantity| |pos.quantity| = _
      rw [qsignum_neg hqneg]
      ring
    · intro hlt
      rw [habs_d, habs_q] at hlt
      have h2neg : pos.quantity + quantity < 0 := by linarith
      rw [hupdate]
      show (if pos.quantity + quantity = 0 then 0
        else if qsignum (pos.quantity + quantity) ≠
            qsignum (pos.quantity + quantity - quantity) then price
        else pos.average_price) = pos.average_price
      rw [if_neg (ne_of_lt h2neg), hq2d, qsignum_neg h2neg, qsignum_neg hqneg]
      simp
    · intro heq
      rw [habs_d, habs_q] at heq
      have h2 : pos.quantity + quantity = 0 := by linarith
      rw [hupdate]
      show (if pos.quantity + quantity = 0 then 0
        else if qsignum (pos.quantity + quantity) ≠
            qsignum (pos.quantity + quantity - quantity) then price
        else pos.average_price) = 0
      rw [if_pos h2]
    · intro hgt
      rw [habs_d, habs_q] at hgt
      have h2pos : 0 < pos.quantity + quantity := by linarith
      rw [hupdate]
      show (if pos.quantity + quantity = 0 then 0
        else if qsignum (pos.quantity + quantity) ≠
            qsignum (pos.quantity + quantity - quantity) then price
        else pos.average_price) = price
      rw [if_neg (ne_of_gt h2pos), hq2d, qsignum_pos h2pos, qsignum_neg hqneg]
      norm_num
  | sell =>
    have hd : signed_delta .sell quantity = -quantity := rfl
    rw [hd] at hopp ⊢
    have hqpos : 0 < pos.quantity := by
      rcases lt_or_gt_of_ne h0 with h | h
      · exact absurd (iff_of_false (not_lt.mpr h.le)
          (not_lt.mpr (by linarith))) hopp
      · exact h
    have habs_d : |(-quantity)| = quantity := by
      rw [abs_neg, abs_of_pos hq]
    have habs_q : |pos.quantity| = pos.quantity := abs_of_pos hqpos
    have hq2d : pos.quantity + -quantity - -quantity = pos.quantity := by ring
    have hupdate : pos.update_from_fill .sell quantity price =
        { pos with
          realized_pnl := pos.realized_pnl +
            (price - pos.average_price) * min |(-quantity)| |pos.quantity|
          quantity := pos.quantity + -quantity
          average_price :=
            if pos.quantity + -quantity = 0 then 0
            else if qsignum (pos.quantity + -quantity) ≠
                qsignum (pos.quantity + -quantity - -quantity) then price
            else pos.average_price } := by
      simp only [TSPosition.update_from_fill, signed_delta]
      rw [if_neg h0, if_neg hopp]
    refine ⟨?_, ?_, ?_, ?_⟩
    · rw [hupdate]
      show pos.realized_pnl +
          (price - pos.average_price) * min |(-quantity)| |pos.quantity| = _
      rw [qsignum_pos hqpos]
      ring
    · intro hlt
      rw [habs_d, habs_q] at hlt
      have h2pos : 0 < pos.quantity + -quantity := by linarith
      rw [hupdate]
      show (if pos.quantity + -quantity = 0 then 0
        else if qsignum (pos.quantity + -quantity) ≠
            qsignum (pos.quantity + -quantity - -quantity) then price
        else pos.average_price) = pos.average_price
      rw [if_neg (ne_of_gt h2pos), hq2d, qsignum_pos h2pos, qsignum_pos hqpos]
      simp
    · intro heq
      rw [habs_d, habs_q] at heq
      have h2 : pos.quantity + -quantity = 0 := by linarith
      rw [hupdate]
      show (if pos.quantity + -quantity = 0 then 0
        else if qsignum (pos.quantity + -quantity) ≠
            qsignum (pos.quantity + -quantity - -quantity) then price
        else pos.average_price) = 0
      rw [if_pos h2]
    · intro hgt
      rw [habs_d, habs_q] at hgt
      have h2neg : pos.quantity + -quantity < 0 := by linarith
      rw [hupdate]
      show (if pos.quantity + -quantity = 0 then 0
        else if qsignum (pos.quantity + -quantity) ≠
            qsignum (pos.quantity + -quantity - -quantity) then price
        else pos.average_price) = price
      rw [if_neg (ne_of_lt h2neg), hq2d, qsignum_neg h2neg, qsignum_pos hqpos]
      norm_num

/-- Reduction/reversal behaviour of
`PortfolioService::update_position_from_execution`
(`src/services/portfolio_service.rs`): both the position-level and the
portfolio-level realized PnL gain `min(|Δ|, |q|) · (P − a) · sign(q)`, and the
average cost is kept / zeroed / re-based exactly as in the claim. -/
theorem pf_update_reduce (pos : PFPosition) (cash prealized : ℚ)
    (side : OrderSide) (quantity price : ℚ) (hq : 0 < quantity)
    (h0 : pos.quantity ≠ 0)
    (hopp : ¬((0 < pos.quantity) ↔ (0 < signed_delta side quantity))) :
    (pfUpdatePositionFromExecution pos cash prealized side quantity
        price).1.realized_pnl =
      pos.realized_pnl +
        min |signed_delta side quantity| |pos.quantity| *
          (price - pos.average_cost) * qsignum pos.quantity ∧
    (pfUpdatePositionFromExecution pos cash prealized side quantity price).2.2 =
      prealized +
        min |signed_delta side quantity| |pos.quantity| *
          (price - pos.average_cost) * qsignum pos.quantity ∧
    (|signed_delta side quantity| < |pos.quantity| →
      (pfUpdatePositionFromExecution pos cash prealized side quantity
        price).1.average_cost = pos.average_cost) ∧
    (|signed_delta side quantity| = |pos.quantity| →
      (pfUpdatePositionFromExecution pos cash prealized side quantity
        price).1.average_cost = 0) ∧
    (|pos.quantity| < |signed_delta side quantity| →
      (pfUpdatePositionFromExecution pos cash prealized side quantity
        price).1.average_cost = price) := by
  have hbb : (OrderSide.buy = OrderSide.buy) = True := by simp
  have hsb : (OrderSide.sell = OrderSide.buy) = False := by simp
  cases side with
  | buy =>
    have hd : signed_delta .buy quantity = quantity := rfl
    rw [hd] at hopp ⊢
    have hqneg : pos.quantity < 0 := by
      rcases lt_or_gt_of_ne h0 with h | h
      · exact h
      · exact absurd (iff_of_true h hq) hopp
    have habs_d : |quantity| = quantity := abs_of_pos hq
    have habs_q : |pos.quantity| = -pos.quantity := abs_of_neg hqneg
    have hupdate : pfUpdatePositionFromExecution pos cash prealized .buy
        quantity price =
        ({ pos with
           realized_pnl := pos.realized_pnl +
             (pos.average_cost - price) * min |quantity| |pos.quantity|
           quantity := pos.quantity + quantity
           average_cost :=
             if pos.quantity + quantity = 0 then 0
             else if qsignum (pos.quantity + quantity) ≠ qsignum pos.quantity
               then price
             else pos.average_cost
           pside :=
             if pos.quantity + quantity = 0 then PositionSide.flat
             else if qsignum (pos.quantity + quantity) ≠ qsignum pos.quantity
               then (if 0 < pos.quantity + quantity then PositionSide.long
                 else PositionSide.short)
             else pos.pside
           trade_count := pos.trade_count + 1 },
         cash + -(quantity * price),
         prealized +
           (pos.average_cost - price) * min |quantity| |pos.quantity|) := by
      simp only [pfUpdatePositionFromExecution, hbb, ite_true]
      rw [if_neg h0, if_neg hopp]
    refine ⟨?_, ?_, ?_, ?_, ?_⟩
    · rw [hupdate, qsignum_neg hqneg]
      show pos.realized_pnl +
          (pos.average_cost - price) * min |quantity| |pos.quantity| = _
      ring
    · rw [hupdate, qsignum_neg hqneg]
      show prealized +
          (pos.average_cost - price) * min |quantity| |pos.quantity| = _
      ring
    · intro hlt
      rw [habs_d, habs_q] at hlt
      have h2neg : pos.quantity + quantity < 0 := by linarith
      rw [hupdate]
      show (if pos.quantity + quantity = 0 then 0
        else if qsignum (pos.quantity + quantity) ≠ qsignum pos.quantity
          then price
        else pos.average_cost) = pos.average_cost
      rw [if_neg (ne_of_lt h2neg), qsignum_neg h2neg, qsignum_neg hqneg]
      simp
    · intro heq
      rw [habs_d, habs_q] at heq
      have h2 : pos.quantity + quantity = 0 := by linarith
      rw [hupdate]
      show (if pos.quantity + quantity = 0 then 0
        else if qsignum (pos.quantity + quantity) ≠ qsignum pos.quantity
          then price
        else pos.average_cost) = 0
      rw [if_pos h2]
    · intro hgt
      rw [habs_d, habs_q] at hgt
      have h2pos : 0 < pos.quantity + quantity := by linarith
      rw [hupdate]
      show (if pos.quantity + quantity = 0 then 0
        else if qsignum (pos.quantity + quantity) ≠ qsignum pos.quantity
          then price
        else pos.average_cost) = price
      rw [if_neg (ne_of_gt h2pos), qsignum_pos h2pos, qsignum_neg hqneg]
      norm_num
  | sell =>
    have hd : signed_delta .sell quantity = -quantity := rfl
    rw [hd] at hopp ⊢
    have hqpos : 0 < pos.quantity := by
      rcases lt_or_gt_of_ne h0 with h | h
      · exact absurd (iff_of_false (not_lt.mpr h.le)
          (not_lt.mpr (by linarith))) hopp
      · exact h
    have habs_d : |(-quantity)| = quantity := by
      rw [abs_neg, abs_of_pos hq]
    have habs_q : |pos.quantity| = pos.quantity := abs_of_pos hqpos
    have hupdate : pfUpdatePositionFromExecution pos cash prealized .sell
        quantity price =
        ({ pos with
           realized_pnl := pos.realized_pnl +
             (price - pos.average_cost) * min |(-quantity)| |pos.quantity|
           quantity := pos.quantity + -quantity
           average_cost :=
             if pos.quantity + -quantity = 0 then 0
             else if qsignum (pos.quantity + -quantity) ≠ qsignum pos.quantity
               then price
             else pos.average_cost
           pside :=
             if pos.quantity + -quantity = 0 then PositionSide.flat
             else if qsignum (pos.quantity + -quantity) ≠ qsignum pos.quantity
               then (if 0 < pos.quantity + -quantity then PositionSide.long
                 else PositionSide.short)
             else pos.pside
           trade_count := pos.trade_count + 1 },
         cash + quantity * price,
         prealized +
           (price - pos.average_cost) * min |(-quantity)| |pos.quantity|) := by
      simp only [pfUpdatePositionFromExecution, hsb, ite_false]
      rw [if_neg h0, if_neg hopp]
    refine ⟨?_, ?_, ?_, ?_, ?_⟩
    · rw [hupdate, qsignum_pos hqpos]
      show pos.realized_pnl +
          (price - pos.average_cost) * min |(-quantity)| |pos.quantity| = _
      ring
    · rw [hupdate, qsignum_pos hqpos]
      show prealized +
          (price - pos.average_cost) * min |(-quantity)| |pos.quantity| = _
      ring
    · intro hlt
      rw [habs_d, habs_q] at hlt
      have h2pos : 0 < pos.quantity + -quantity := by linarith
      rw [hupdate]
      show (if pos.quantity + -quantity = 0 then 0
        else if qsignum (pos.quantity + -quantity) ≠ qsignum pos.quantity
          then price
        else pos.average_cost) = pos.average_cost
      rw [if_neg (ne_of_gt h2pos), qsignum_pos h2pos, qsignum_pos hqpos]
      simp
    · intro heq
      rw [habs_d, habs_q] at heq
      have h2 : pos.quantity + -quantity = 0 := by linarith
      rw [hupdate]
      show (if pos.quantity + -quantity = 0 then 0
        else if qsignum (pos.quantity + -quantity) ≠ qsignum pos.quantity
          then price
        else pos.average_cost) = 0
      rw [if_pos h2]
    · intro hgt
      rw [habs_d, habs_q] at hgt
      have h2neg : pos.quantity + -quantity < 0 := by linarith
      rw [hupdate]
      show (if pos.quantity + -quantity = 0 then 0
        else if qsignum (pos.quantity + -quantity) ≠ qsignum pos.quantity
          then price
        else pos.average_cost) = price
      rw [if_neg (ne_of_lt h2neg), qsignum_neg h2neg, qsignum_pos hqpos]
      norm_num

/-- C8: realized PnL on reductions and reversals, for both ledgers.  For every
fill whose signed delta `Δ` opposes the sign of the current position `q`,
`Position::update_from_fill` (`src/services/trading_service.rs`) and
`PortfolioService::update_position_from_execution`
(`src/services/portfolio_service.rs`) add
`min(|Δ|, |q|) · (P − a) · sign(q)` to realized PnL (the portfolio version to
both the position and the portfolio totals), leave the average cost unchanged
on a pure reduction, reset it to 0 when the position goes flat, and set it to
the fill price on a reversal. -/
theorem realized_pnl_on_reduction_and_reversal :
    (∀ (pos : TSPosition) (side : OrderSide) (quantity price : ℚ),
      0 < quantity → pos.quantity ≠ 0 →
      ¬((0 < pos.quantity) ↔ (0 < signed_delta side quantity)) →
      (pos.update_from_fill side quantity price).realized_pnl =
        pos.realized_pnl +
          min |signed_delta side quantity| |pos.quantity| *
            (price - pos.average_price) * qsignum pos.quantity ∧
      (|signed_delta side quantity| < |pos.quantity| →
        (pos.update_from_fill side quantity price).average_price =
          pos.average_price) ∧
      (|signed_delta side quantity| = |pos.quantity| →
        (pos.update_from_fill side quantity price).average_price = 0) ∧
      (|pos.quantity| < |signed_delta side quantity| →
        (pos.update_from_fill side quantity price).average_price = price)) ∧
    (∀ (pos : PFPosition) (cash prealized : ℚ) (side : OrderSide)
       (quantity price : ℚ),
      0 < quantity → pos.quantity ≠ 0 →
      ¬((0 < pos.quantity) ↔ (0 < signed_delta side quantity)) →
      (pfUpdatePositionFromExecution pos cash prealized side quantity
          price).1.realized_pnl =
        pos.realized_pnl +
          min |signed_delta side quantity| |pos.quantity| *
            (price - pos.average_cost) * qsignum pos.quantity ∧
      (pfUpdatePositionFromExecution pos cash prealized side quantity
          price).2.2 =
        prealized +
          min |signed_delta side quantity| |pos.quantity| *
            (price - pos.average_cost) * qsignum pos.quantity ∧
      (|signed_delta side quantity| < |pos.quantity| →
        (pfUpdatePositionFromExecution pos cash prealized side quantity
          price).1.average_cost = pos.average_cost) ∧
      (|signed_delta side quantity| = |pos.quantity| →
        (pfUpdatePositionFromExecution pos cash prealized side quantity
          price).1.average_cost = 0) ∧
      (|pos.quantity| < |signed_delta side quantity| →
        (pfUpdatePositionFromExecution pos cash prealized side quantity
          price).1.average_cost = price)) :=
  ⟨fun pos side quantity price hq h0 hopp =>
      update_from_fill_reduce pos side quantity price hq h0 hopp,
   fun pos cash prealized side quantity price hq h0 hopp =>
      pf_update_reduce pos cash prealized side quantity price hq h0 hopp⟩

/-- Witness for C8's theorem: spec §8 scenario 5 — long 1 at average 50000,
sell 2 at 52000: realized PnL gains `min(2,1)·(52000−50000)·1 = 2000` and the
reversal re-bases the average at 52000. -/
theorem realized_pnl_on_reduction_and_reversal_witness :
    ((⟨1, 50000, 0, 0⟩ : TSPosition).update_from_fill .sell 2 52000).realized_pnl =
      (⟨1, 50000, 0, 0⟩ : TSPosition).realized_pnl +
        min |signed_delta .sell 2| |(⟨1, 50000, 0, 0⟩ : TSPosition).quantity| *
          (52000 - (⟨1, 50000, 0, 0⟩ : TSPosition).average_price) *
          qsignum (⟨1, 50000, 0, 0⟩ : TSPosition).quantity ∧
    ((⟨1, 50000, 0, 0⟩ : TSPosition).update_from_fill .sell 2 52000).average_price =
      52000 :=
  ⟨(realized_pnl_on_reduction_and_reversal.1 ⟨1, 50000, 0, 0⟩ .sell 2 52000
      (by norm_num) (by norm_num) (by norm_num [signed_delta])).1,
   (realized_pnl_on_reduction_and_reversal.1 ⟨1, 50000, 0, 0⟩ .sell 2 52000
      (by norm_num) (by norm_num) (by norm_num [signed_delta])).2.2.2
      (by norm_num [signed_delta])⟩

/-- In a `≤`-sorted list every element is at most the last one. -/
theorem sorted_le_getLast :
    ∀ (l : List Nat), l.Sorted (· ≤ ·) →
      ∀ x ∈ l, ∀ hne : l ≠ [], x ≤ l.getLast hne := by
  intro l
  induction l with
  | nil =>
    intro _ x hx
    exact absurd hx (List.not_mem_nil x)
  | cons a rest ih =>
    intro h x hx hne
    cases rest with
    | nil =>
      rcases List.mem_singleton.mp hx with rfl
      exact le_refl _
    | cons b rest2 =>
      have hsort := List.sorted_cons.mp h
      rw [List.getLast_cons (List.cons_ne_nil b rest2)]
      rcases List.mem_cons.mp hx with rfl | hx2
      · exact hsort.1 _ (List.getLast_mem _)
      · exact ih hsort.2 x hx2 (List.cons_ne_nil b rest2)

/-- One `record_latency` step seen as a window over the whole input history. -/
theorem record_latency_window (N : Nat) (hN : 1 ≤ N) (ys : List Nat) (x : Nat) :
    (⟨ys.drop (ys.length - N), N⟩ : LatencyTracker).record_latency x =
      ⟨(ys ++ [x]).drop ((ys ++ [x]).length - N), N⟩ := by
  rw [LatencyTracker.record_latency]
  by_cases hge : N ≤ ys.length
  · have hcond : N ≤ (ys.drop (ys.length - N)).length := by
      rw [List.length_drop]
      omega
    rw [if_pos hcond]
    have hsamp : (ys.drop (ys.length - N)).tail ++ [x] =
        (ys ++ [x]).drop ((ys ++ [x]).length - N) := by
      rw [List.tail_drop, List.length_append]
      have h1 : ys.length + [x].length - N = (ys.length - N) + 1 := by
        simp only [List.length_singleton]
        omega
      rw [h1, List.drop_append_of_le_length (by omega)]
    exact congrArg (fun l => LatencyTracker.mk l N) hsamp
  · have hcond : ¬ N ≤ (ys.drop (ys.length - N)).length := by
      rw [List.length_drop]
      omega
    rw [if_neg hcond]
    have hz : ys.length - N = 0 := by omega
    have hz2 : (ys ++ [x]).length - N = 0 := by
      rw [List.length_append]
      simp only [List.length_singleton]
      omega
    rw [hz, hz2]
    simp

/-- `record_all` keeps exactly the last `N` elements of the input history. -/
theorem record_all_window_aux (N : Nat) (hN : 1 ≤ N) :
    ∀ (xs ys : List Nat),
      ((⟨ys.drop (ys.length - N), N⟩ : LatencyTracker).record_all xs).samples =
        (ys ++ xs).drop ((ys ++ xs).length - N) := by
  intro xs
  induction xs with
  | nil =>
    intro ys
    simp [LatencyTracker.record_all]
  | cons x xs ih =>
    intro ys
    show ((LatencyTracker.record_all
        ((⟨ys.drop (ys.length - N), N⟩ : LatencyTracker).record_latency x))
        xs).samples = _
    rw [record_latency_window N hN ys x]
    rw [show ys ++ x :: xs = (ys ++ [x]) ++ xs from by simp]
    exact ih (ys ++ [x])

/-- C9 (as amended, requiring capacity ≥ 1): `LatencyTracker` window and
percentiles (`src/utils/latency.rs`).  (1) After any sequence of
`record_latency` calls on a tracker of capacity `N ≥ 1`, the held samples are
exactly the most recent `min(number of records, N)` inputs (the oldest evicted
first).  (2) On a non-empty tracker, `get_distribution` sorts the samples
ascending (a sorted permutation of them, of the same length `count`), reports
the count, the `min` and `max` of the held samples, and each percentile `p` as
the element at index `⌊count·p⌋` of the sorted samples.  (For `N = 0` the code
keeps one sample, not `min(n, 0) = 0` — see the counterexample.) -/
theorem latency_tracker_window_and_percentiles :
    (∀ (N : Nat) (xs : List Nat), 1 ≤ N →
      ((LatencyTracker.new N).record_all xs).samples =
        xs.drop (xs.length - min xs.length N) ∧
      ((LatencyTracker.new N).record_all xs).samples.length = min xs.length N) ∧
    (∀ t : LatencyTracker, t.samples ≠ [] →
      (t.samples.mergeSort (· ≤ ·)).Sorted (· ≤ ·) ∧
      List.Perm (t.samples.mergeSort (· ≤ ·)) t.samples ∧
      (t.samples.mergeSort (· ≤ ·)).length = t.samples.length ∧
      (t.get_distribution).sample_count = t.samples.length ∧
      ((t.get_distribution).min ∈ t.samples ∧
        ∀ x ∈ t.samples, (t.get_distribution).min ≤ x) ∧
      ((t.get_distribution).max ∈ t.samples ∧
        ∀ x ∈ t.samples, x ≤ (t.get_distribution).max) ∧
      (∃ h : (t.samples.mergeSort (· ≤ ·)).length * 50 / 100 <
          (t.samples.mergeSort (· ≤ ·)).length,
        (t.get_distribution).p50 = (t.samples.mergeSort (· ≤ ·)).get ⟨_, h⟩) ∧
      (∃ h : (t.samples.mergeSort (· ≤ ·)).length * 95 / 100 <
          (t.samples.mergeSort (· ≤ ·)).length,
        (t.get_distribution).p95 = (t.samples.mergeSort (· ≤ ·)).get ⟨_, h⟩) ∧
      (∃ h : (t.samples.mergeSort (· ≤ ·)).length * 99 / 100 <
          (t.samples.mergeSort (· ≤ ·)).length,
        (t.get_distribution).p99 = (t.samples.mergeSort (· ≤ ·)).get ⟨_, h⟩) ∧
      (∃ h : (t.samples.mergeSort (· ≤ ·)).length * 999 / 1000 <
          (t.samples.mergeSort (· ≤ ·)).length,
        (t.get_distribution).p999 = (t.samples.mergeSort (· ≤ ·)).get ⟨_, h⟩)) := by
  constructor
  · intro N xs hN
    have h := record_all_window_aux N hN xs []
    simp only [List.drop_nil, List.length_nil, List.nil_append] at h
    have hnew : LatencyTracker.new N = (⟨[], N⟩ : LatencyTracker) := rfl
    rw [hnew]
    constructor
    · rw [h]
      have heq : xs.length - N = xs.length - min xs.length N := by omega
      rw [heq]
    · rw [h, List.length_drop]
      omega
  · intro t ht
    have hne : ¬ t.samples.isEmpty = true := by
      simpa [List.isEmpty_iff] using ht
    have hsort : (t.samples.mergeSort (· ≤ ·)).Sorted (· ≤ ·) :=
      List.sorted_mergeSort' t.samples
    have hperm : List.Perm (t.samples.mergeSort (· ≤ ·)) t.samples :=
      List.mergeSort_perm t.samples _
    have hlen : (t.samples.mergeSort (· ≤ ·)).length = t.samples.length :=
      hperm.length_eq
    have hpos : 0 < (t.samples.mergeSort (· ≤ ·)).length := by
      rw [hlen]
      exact List.length_pos.mpr ht
    have hd : t.get_distribution =
        { min := (t.samples.mergeSort (· ≤ ·)).head?.getD 0
          max := (t.samples.mergeSort (· ≤ ·)).getLast?.getD 0
          mean := ((t.samples.mergeSort (· ≤ ·)).sum : ℚ) /
            ((t.samples.mergeSort (· ≤ ·)).length : ℚ)
          p50 := ((t.samples.mergeSort (· ≤ ·))[
            (t.samples.mergeSort (· ≤ ·)).length * 50 / 100]?).getD 0
          p95 := ((t.samples.mergeSort (· ≤ ·))[
            (t.samples.mergeSort (· ≤ ·)).length * 95 / 100]?).getD 0
          p99 := ((t.samples.mergeSort (· ≤ ·))[
            (t.samples.mergeSort (· ≤ ·)).length * 99 / 100]?).getD 0
          p999 := ((t.samples.mergeSort (· ≤ ·))[
            (t.samples.mergeSort (· ≤ ·)).length * 999 / 1000]?).getD 0
          sample_count := (t.samples.mergeSort (· ≤ ·)).length } := by
      rw [LatencyTracker.get_distribution, if_neg hne]
    obtain ⟨a, rest, hcons⟩ :
        ∃ a rest, t.samples.mergeSort (· ≤ ·) = a :: rest := by
      cases hs : t.samples.mergeSort (· ≤ ·) with
      | nil =>
        rw [hs] at hpos
        simp at hpos
      | cons a r => exact ⟨a, r, rfl⟩
    have hsortedcons : List.Sorted (· ≤ ·) (a :: rest) := hcons ▸ hsort
    have hamem : a ∈ t.samples := by
      refine hperm.subset ?_
      rw [hcons]
      exact List.mem_cons_self a rest
    have hlastmem : (a :: rest).getLast (List.cons_ne_nil a rest) ∈ t.samples := by
      refine hperm.subset ?_
      rw [hcons]
      exact List.getLast_mem (List.cons_ne_nil a rest)
    refine ⟨hsort, hperm, hlen, ?_, ⟨?_, ?_⟩, ⟨?_, ?_⟩, ?_, ?_, ?_, ?_⟩
    · rw [hd]
      exact hlen
    · rw [hd]
      show ((t.samples.mergeSort (· ≤ ·)).head?.getD 0) ∈ t.samples
      rw [hcons]
      simpa using hamem
    · intro x hx
      rw [hd]
      show ((t.samples.mergeSort (· ≤ ·)).head?.getD 0) ≤ x
      rw [hcons]
      simp only [List.head?_cons, Option.getD_some]
      have hx2 : x ∈ a :: rest := by
        rw [← hcons]
        exact hperm.symm.subset hx
      rcases List.mem_cons.mp hx2 with rfl | hx3
      · exact le_refl x
      · exact (List.sorted_cons.mp hsortedcons).1 x hx3
    · rw [hd]
      show ((t.samples.mergeSort (· ≤ ·)).getLast?.getD 0) ∈ t.samples
      rw [hcons, List.getLast?_eq_getLast _ (List.cons_ne_nil a rest)]
      simpa using hlastmem
    · intro x hx
      rw [hd]
      show x ≤ ((t.samples.mergeSort (· ≤ ·)).getLast?.getD 0)
      rw [hcons, List.getLast?_eq_getLast _ (List.cons_ne_nil a rest)]
      simp only [Option.getD_some]
      have hx2 : x ∈ a :: rest := by
        rw [← hcons]
        exact hperm.symm.subset hx
      exact sorted_le_getLast _ hsortedcons x hx2 (List.cons_ne_nil a rest)
    · have hidx : (t.samples.mergeSort (· ≤ ·)).length * 50 / 100 <
          (t.samples.mergeSort (· ≤ ·)).length :=
        (Nat.div_lt_iff_lt_mul (by norm_num)).mpr (by omega)
      refine ⟨hidx, ?_⟩
      rw [hd]
      show ((t.samples.mergeSort (· ≤ ·))[
        (t.samples.mergeSort (· ≤ ·)).length * 50 / 100]?).getD 0 = _
      rw [List.getElem?_eq_getElem hidx]
      rfl
    · have hidx : (t.samples.mergeSort (· ≤ ·)).length * 95 / 100 <
          (t.samples.mergeSort (· ≤ ·)).length :=
        (Nat.div_lt_iff_lt_mul (by norm_num)).mpr (by omega)
      refine ⟨hidx, ?_⟩
      rw [hd]
      show ((t.samples.mergeSort (· ≤ ·))[
        (t.samples.mergeSort (· ≤ ·)).length * 95 / 100]?).getD 0 = _
      rw [List.getElem?_eq_getElem hidx]
      rfl
    · have hidx : (t.samples.mergeSort (· ≤ ·)).length * 99 / 100 <
          (t.samples.mergeSort (· ≤ ·)).length :=
        (Nat.div_lt_iff_lt_mul (by norm_num)).mpr (by omega)
      refine ⟨hidx, ?_⟩
      rw [hd]
      show ((t.samples.mergeSort (· ≤ ·))[
        (t.samples.mergeSort (· ≤ ·)).length * 99 / 100]?).getD 0 = _
      rw [List.getElem?_eq_getElem hidx]
      rfl
    · have hidx : (t.samples.mergeSort (· ≤ ·)).length * 999 / 1000 <
          (t.samples.mergeSort (· ≤ ·)).length :=
        (Nat.div_lt_iff_lt_mul (by norm_num)).mpr (by omega)
      refine ⟨hidx, ?_⟩
      rw [hd]
      show ((t.samples.mergeSort (· ≤ ·))[
        (t.samples.mergeSort (· ≤ ·)).length * 999 / 1000]?).getD 0 = _
      rw [List.getElem?_eq_getElem hidx]
      rfl

/-- Witness for C9's theorem: capacity 3 with five records keeps `[3, 4, 5]`,
and the distribution minimum of `[5, 1, 4]` is one of the held samples. -/
theorem latency_tracker_window_and_percentiles_witness :
    (((LatencyTracker.new 3).record_all [1, 2, 3, 4, 5]).samples =
        [1, 2, 3, 4, 5].drop
          ([1, 2, 3, 4, 5].length - min [1, 2, 3, 4, 5].length 3) ∧
      ((LatencyTracker.new 3).record_all [1, 2, 3, 4, 5]).samples.length =
        min [1, 2, 3, 4, 5].length 3) ∧
    ((⟨[5, 1, 4], 3⟩ : LatencyTracker).get_distribution).min ∈
      ([5, 1, 4] : List Nat) :=
  ⟨latency_tracker_window_and_percentiles.1 3 [1, 2, 3, 4, 5] (by norm_num),
   (latency_tracker_window_and_percentiles.2 ⟨[5, 1, 4], 3⟩
      (by simp)).2.2.2.2.1.1⟩

/-- C9, the claim as stated is false for capacity `N = 0`: a single record on a
zero-capacity tracker leaves one held sample, not `min(1, 0) = 0` (the
`VecDeque` pop-then-push keeps the new sample). -/
theorem latency_tracker_zero_capacity_counterexample :
    ((LatencyTracker.new 0).record_latency 5).samples = [5] ∧
    ((LatencyTracker.new 0).record_latency 5).samples.length = 1 ∧
    ¬ ((1 : Nat) = min 1 0) := by
  decide
